import Mathlib

set_option linter.unusedVariables false
set_option maxHeartbeats 2000000

/- Shallow embedding of the two core modules of the repository:
   src/github_extractor.py (repository identifier parsing, metadata
   aggregation, batch enrichment) and src/lauzhack_scraper.py (heuristic
   project-block field recovery, tag matching, deduplication, schedule
   extraction, tag-vocabulary extraction).  Machine strings are Lean
   String/List Char; Python regexes are modelled by explicit character
   scans with the same matching semantics; fallible Python code is
   modelled with Option/Except. -/

/-! ### Python character-class and string helpers -/

/-- Python regex class \s (ASCII part), as used by the scraper's regexes. -/
def pyIsSpace (c : Char) : Bool :=
  c = ' ' || c = '\t' || c = '\n' || c = '\r' || c = '\x0b' || c = '\x0c'

/-- Python regex class \w (ASCII part), used for \b word boundaries. -/
def isWordChar (c : Char) : Bool := c.isAlphanum || c = '_'

def isWordOpt : Option Char → Bool
  | none => false
  | some c => isWordChar c

/-- Python substring containment, `pat in hay`. -/
def containsSub (pat : List Char) : List Char → Bool
  | [] => pat.isEmpty
  | c :: cs => pat.isPrefixOf (c :: cs) || containsSub pat cs

/-- Python `str.strip()` on a character list (ASCII whitespace). -/
def pyStripL (cs : List Char) : List Char :=
  ((cs.dropWhile pyIsSpace).reverse.dropWhile pyIsSpace).reverse

/-- Python `str.strip()`. -/
def pyStripStr (s : String) : String := (pyStripL s.toList).asString

/-- Python `str.rstrip(",")`: remove all trailing commas. -/
def rstripCommas (s : String) : String :=
  ((s.toList.reverse.dropWhile (· = ',')).reverse).asString

/-- Python `str.lower()` (ASCII). -/
def pyLowerStr (s : String) : String := (s.toList.map Char.toLower).asString

/-- Python `" ".join(xs)`. -/
def joinSpace (xs : List String) : String := String.intercalate " " xs

/-- Python `s.startswith(pre)`. -/
def pyStartsWith (s pre : String) : Bool := pre.toList.isPrefixOf s.toList

/-- Python `s.endswith(suf)`. -/
def pyEndsWith (s suf : String) : Bool := suf.toList.isSuffixOf s.toList

/-! ### JSON values, as returned by `response.json()` -/

inductive Json where
  | null
  | bool (b : Bool)
  | num (n : Int)
  | str (s : String)
  | arr (elems : List Json)
  | obj (fields : List (String × Json))

/-- Python truthiness of a JSON value (`if r.json(): ...`). -/
def pyTruthy : Json → Bool
  | .null => false
  | .bool b => b
  | .num n => n != 0
  | .str s => s != ""
  | .arr l => !l.isEmpty
  | .obj l => !l.isEmpty

/-- Whether the value is a JSON object (a Python dict). -/
def Json.isObj : Json → Bool
  | .obj _ => true
  | _ => false

/-- Python `d.get(key, default)` on a parsed JSON object: the stored value
    (even null) when the key is present, the default otherwise. -/
def pyDictGetD (kvs : List (String × Json)) (k : String) (d : Json) : Json :=
  match kvs.lookup k with
  | some v => v
  | none => d

/-- Python `j[i]` subscript with a non-negative index; `none` models the
    TypeError/IndexError/KeyError path (caught by the enclosing try). -/
def pySubNat (j : Json) (i : Nat) : Option Json :=
  match j with
  | .arr l => l.get? i
  | .str s => (s.toList.get? i).map (fun c => Json.str (String.singleton c))
  | _ => none

/-- Python `j[-1]` subscript. -/
def pySubLast (j : Json) : Option Json :=
  match j with
  | .arr l => l.getLast?
  | .str s => (s.toList.getLast?).map (fun c => Json.str (String.singleton c))
  | _ => none

/-- Python `j[key]` subscript on a JSON value. -/
def pySubStr (j : Json) (k : String) : Option Json :=
  match j with
  | .obj kvs => kvs.lookup k
  | _ => none

/-- Python `len(j)`; `none` models the TypeError for values with no len(). -/
def pyLen (j : Json) : Option Nat :=
  match j with
  | .arr l => some l.length
  | .obj kvs => some kvs.length
  | .str s => some s.length
  | _ => none

/-! ### RepoIdentifierParser: `extract_github_owner_repo`
    (src/github_extractor.py lines 38-49)

    The source matches `re.match(r"https://github\.com/([^/]+)/([^/]+?)(?:\.git|/)?$", url)`.
    Group 1 is a greedy run of non-slash characters followed by a literal
    slash; group 2 is a lazy non-empty run of non-slash characters; the
    optional suffix is one of ".git" or "/"; `$` matches at the end of the
    string or just before a single trailing newline (Python semantics). -/

/-- Python `$` anchor: end of string, or just before a final newline. -/
def endDollar (cs : List Char) : Bool := cs.isEmpty || cs = ['\n']

/-- Can the tail pattern `(?:\.git|/)?$` match the whole remaining input? -/
def trySuffix (rem : List Char) : Bool :=
  (".git".toList.isPrefixOf rem && endDollar (rem.drop 4))
    || (['/'].isPrefixOf rem && endDollar (rem.drop 1))
    || endDollar rem

/-- Lazy extension of group 2 (`[^/]+?`): return the accumulated characters
    as soon as the suffix pattern matches the rest, else extend by one
    non-slash character. -/
def repoGo (acc : List Char) (rem : List Char) : Option (List Char) :=
  if trySuffix rem then some acc
  else
    match rem with
    | [] => none
    | c :: cs => if c = '/' then none else repoGo (acc ++ [c]) cs

/-- Match `([^/]+?)(?:\.git|/)?$` against the input, returning group 2. -/
def matchRepo : List Char → Option (List Char)
  | [] => none
  | c :: cs => if c = '/' then none else repoGo [c] cs

/-- `extract_github_owner_repo` from src/github_extractor.py. -/
def extract_github_owner_repo (url : String) : Option (String × String) :=
  let cs := url.toList
  let pre := "https://github.com/".toList
  if pre.isPrefixOf cs then
    let rest := cs.drop pre.length
    let owner := rest.takeWhile (· ≠ '/')
    match rest.drop owner.length with
    | '/' :: tail =>
      if owner.isEmpty then none
      else (matchRepo tail).map (fun r => (owner.asString, r.asString))
    | _ => none
  else none

/-! ### RepoMetadataAggregator: `fetch_complete_repo_data` / `extract_github_data`
    (src/github_extractor.py lines 52-217)

    Each HTTP round trip is an input of the model.  `CallOutcome.exc`
    models a requests exception; `.resp status body` models a completed
    response, with `body : Option Json` the result of `r.json()` (`none`
    when `.json()` itself would raise).  Calls that also read the `Link`
    header carry it as a string; the README requests carry `r.text`. -/

inductive CallOutcome where
  | exc
  | resp (status : Nat) (body : Option Json)

inductive LinkCallOutcome where
  | exc
  | resp (status : Nat) (linkHeader : String) (body : Option Json)

inductive TextOutcome where
  | exc
  | resp (status : Nat) (text : String)

/-- One network behaviour for the five sequenced calls of
    `fetch_complete_repo_data` (the first-commit call may issue a second
    request for the last pagination page: `firstC2`; the README loop
    issues up to three requests: `readme1..readme3`). -/
structure Behavior where
  meta : CallOutcome
  lastC : CallOutcome
  firstC : LinkCallOutcome
  firstC2 : CallOutcome
  contrib : LinkCallOutcome
  readme1 : TextOutcome
  readme2 : TextOutcome
  readme3 : TextOutcome

/-- `r.json()[0]["commit"]["author"]["date"]`; `none` is the exception path. -/
def commitDateHead (body : Json) : Option Json :=
  pySubNat body 0 >>= (pySubStr · "commit") >>= (pySubStr · "author") >>= (pySubStr · "date")

/-- `r2.json()[-1]["commit"]["author"]["date"]`. -/
def commitDateLast (body : Json) : Option Json :=
  pySubLast body >>= (pySubStr · "commit") >>= (pySubStr · "author") >>= (pySubStr · "date")

/-- Step 2 of the aggregator (lines 98-106): the value left in
    `result["last_commit_date"]` (initialised to `""`). -/
def lastCommitField (o : CallOutcome) : Json :=
  match o with
  | .exc => .str ""
  | .resp status body =>
    if status = 200 then
      match body with
      | none => .str ""
      | some j => if pyTruthy j then (commitDateHead j).getD (.str "") else .str ""
    else .str ""

/-- Scan for the first match of `<([^>]+)>; rel="last"` (line 117): a
    literal `<`, a maximal non-empty run of non-`>` characters, then the
    literal `>; rel="last"`.  Returns group 1. -/
def searchLinkLast : List Char → Option (List Char)
  | [] => none
  | '<' :: rest =>
    let run := rest.takeWhile (· ≠ '>')
    let after := rest.dropWhile (· ≠ '>')
    if !run.isEmpty && (">; rel=\"last\"".toList.isPrefixOf after) then some run
    else searchLinkLast rest
  | _ :: rest => searchLinkLast rest

/-- Step 3 of the aggregator (lines 108-130): the value left in
    `result["first_commit_date"]`.  When the stored metadata is not a
    dict, the f-string's `.get` raises inside the try block, leaving the
    field empty.  `o2` is the follow-up request to the last page. -/
def firstCommitField (metadata : Json) (o : LinkCallOutcome) (o2 : CallOutcome) : Json :=
  match metadata with
  | .obj _ =>
    (match o with
     | .exc => .str ""
     | .resp status link body =>
       if status = 200 then
         if containsSub "last".toList link.toList then
           match searchLinkLast link.toList with
           | some _ =>
             (match o2 with
              | .exc => .str ""
              | .resp s2 b2 =>
                if s2 = 200 then
                  match b2 with
                  | none => .str ""
                  | some j2 =>
                    if pyTruthy j2 then (commitDateLast j2).getD (.str "") else .str ""
                else .str "")
           | none => .str ""
         else
           match body with
           | none => .str ""
           | some j => if pyTruthy j then (commitDateHead j).getD (.str "") else .str ""
       else .str "")
  | _ => .str ""

/-- Scan for the first match of `page=(\d+)>; rel="last"` (line 140): the
    literal `page=`, a maximal non-empty digit run, then `>; rel="last"`.
    Returns group 1 converted by `int(...)`. -/
def searchPageLast : List Char → Option Nat
  | [] => none
  | c :: rest =>
    let cs := c :: rest
    if "page=".toList.isPrefixOf cs then
      let run := (cs.drop 5).takeWhile Char.isDigit
      let after := (cs.drop 5).dropWhile Char.isDigit
      if !run.isEmpty && (">; rel=\"last\"".toList.isPrefixOf after) then
        some (run.foldl (fun a d => 10 * a + (d.toNat - '0'.toNat)) 0)
      else searchPageLast rest
    else searchPageLast rest

/-- Step 4 of the aggregator (lines 132-146): the value left in
    `result["contributors_count"]` (initialised to 0). -/
def contribField (o : LinkCallOutcome) : Nat :=
  match o with
  | .exc => 0
  | .resp status link body =>
    if status = 200 then
      if containsSub "last".toList link.toList then
        match searchPageLast link.toList with
        | some n => n
        | none => 0
      else
        match body with
        | none => 0
        | some j => (pyLen j).getD 0
    else 0

/-- One iteration of the README loop: take `r.text` on a 200 response
    (then `break`), otherwise fall through to the next branch attempt. -/
def readmeTry (o : TextOutcome) (fallback : String) : String :=
  match o with
  | .exc => fallback
  | .resp status t => if status = 200 then t else fallback

/-- Step 5 of the aggregator (lines 148-158): first 200 response wins. -/
def readmeField (r1 r2 r3 : TextOutcome) : String :=
  readmeTry r1 (readmeTry r2 (readmeTry r3 ""))

/-- The `result` dict of `fetch_complete_repo_data` at the return point. -/
structure FetchResult where
  metadata : Json
  first_commit_date : Json
  last_commit_date : Json
  contributors_count : Nat
  readme : String

/-- `fetch_complete_repo_data` (lines 52-160).  `.ok none` models
    `return` of the empty dict; `.error ()` models the uncaught
    AttributeError at line 149 (`result["metadata"].get(...)` outside any
    try block) when a 200 metadata response carries a non-object body. -/
def fetch_complete_repo_data (b : Behavior) : Except Unit (Option FetchResult) :=
  match b.meta with
  | .exc => .ok none
  | .resp status body =>
    if status = 200 then
      match body with
      | none => .ok none
      | some md =>
        let lastDate := lastCommitField b.lastC
        let firstDate := firstCommitField md b.firstC b.firstC2
        let contrib := contribField b.contrib
        match md with
        | .obj _ =>
          .ok (some { metadata := md, first_commit_date := firstDate,
                      last_commit_date := lastDate, contributors_count := contrib,
                      readme := readmeField b.readme1 b.readme2 b.readme3 })
        | _ => .error ()
    else .ok none

/-- The `GitHubRepoData` dataclass (lines 20-35).  Python does not enforce
    the annotations, so the fields populated from JSON hold whatever JSON
    value `dict.get` returned. -/
structure GitHubRepoData where
  owner : String
  repo : String
  stars : Json
  forks : Json
  language : Json
  description : Json
  url : Json
  created_at : Json
  updated_at : Json
  first_commit_date : Json
  last_commit_date : Json
  contributors_count : Nat
  readme : String

/-- `extract_github_data` (lines 163-217). -/
def extract_github_data (repo_url : String) (b : Behavior) (fetch_readme : Bool) :
    Except Unit (Option GitHubRepoData) :=
  match extract_github_owner_repo repo_url with
  | none => .ok none
  | some (owner, repo) =>
    match fetch_complete_repo_data b with
    | .error e => .error e
    | .ok none => .ok none
    | .ok (some raw) =>
      if pyTruthy raw.metadata then
        match raw.metadata with
        | .obj kvs =>
          .ok (some
            { owner := owner, repo := repo,
              stars := pyDictGetD kvs "stargazers_count" (.num 0),
              forks := pyDictGetD kvs "forks_count" (.num 0),
              language := pyDictGetD kvs "language" (.str ""),
              description := pyDictGetD kvs "description" (.str ""),
              url := pyDictGetD kvs "html_url" (.str ""),
              created_at := pyDictGetD kvs "created_at" (.str ""),
              updated_at := pyDictGetD kvs "updated_at" (.str ""),
              first_commit_date := raw.first_commit_date,
              last_commit_date := raw.last_commit_date,
              contributors_count := raw.contributors_count,
              readme := if fetch_readme then raw.readme else "" })
        | _ => .error ()  -- unreachable: `metadata.get` would raise (fetch already raised)
      else .ok none

/-! ### BatchEnricher: `extract_github_data_batch` (lines 220-255)

    The network behaviour is a function of the URL; the observable
    schedule (which URL is processed when, and where the fixed delay is
    slept) is recorded as an event trace. -/

inductive BatchEvent where
  | visit (url : String)
  | sleep
deriving DecidableEq

/-- Python dict assignment `results[url] = data`: update in place if the
    key is present (keeping insertion order), else append. -/
def updAssoc (m : List (String × GitHubRepoData)) (k : String) (v : GitHubRepoData) :
    List (String × GitHubRepoData) :=
  match m with
  | [] => [(k, v)]
  | (k', v') :: rest => if k' = k then (k, v) :: rest else (k', v') :: updAssoc rest k v

/-- The loop of `extract_github_data_batch`: process URLs in order,
    recording a visit event per URL and a sleep event between consecutive
    URLs (`if i < len(repo_urls)`), and propagating any uncaught
    exception. -/
def batchGo (bhv : String → Behavior) (fr : Bool)
    (acc : List (String × GitHubRepoData)) (tr : List BatchEvent) :
    List String → Except Unit (List (String × GitHubRepoData) × List BatchEvent)
  | [] => .ok (acc, tr)
  | url :: rest =>
    match extract_github_data url (bhv url) fr with
    | .error e => .error e
    | .ok od =>
      let acc' := match od with
        | some d => updAssoc acc url d
        | none => acc
      let evs := if rest.isEmpty then [BatchEvent.visit url]
                 else [BatchEvent.visit url, BatchEvent.sleep]
      batchGo bhv fr acc' (tr ++ evs) rest

/-- `extract_github_data_batch` (lines 220-255). -/
def extract_github_data_batch (repo_urls : List String) (bhv : String → Behavior)
    (fr : Bool) : Except Unit (List (String × GitHubRepoData) × List BatchEvent) :=
  batchGo bhv fr [] [] repo_urls

/-- A behaviour that cannot hit the uncaught AttributeError of line 149:
    its metadata call never returns a 200 whose JSON body is a non-object. -/
def metaBodySafe (b : Behavior) : Bool :=
  match b.meta with
  | .exc => true
  | .resp status body =>
    if status = 200 then
      match body with
      | none => true
      | some j => j.isObj
    else true

/-- The profile one URL resolves to (none when parsing fails, aggregation
    yields no profile, or extraction raises). -/
def profOf (bhv : String → Behavior) (fr : Bool) (u : String) : Option GitHubRepoData :=
  match extract_github_data u (bhv u) fr with
  | .ok od => od
  | .error _ => none

/-! ### Scraper text helpers (src/lauzhack_scraper.py) -/

/-- Single pass of `re.sub(r"\s+", " ", s)`: collapse each maximal
    whitespace run to a single space. -/
def collapseWs (inRun : Bool) : List Char → List Char
  | [] => []
  | c :: cs =>
    if pyIsSpace c then
      if inRun then collapseWs true cs else ' ' :: collapseWs true cs
    else c :: collapseWs false cs

/-- `_clean_spaces` (lines 98-99): `re.sub(r"\s+", " ", s or "").strip()`. -/
def cleanSpacesL (cs : List Char) : List Char := pyStripL (collapseWs false cs)

def cleanSpaces (s : String) : String := (cleanSpacesL s.toList).asString

/-- State for the `re.split` scanner on runs of two-or-more whitespace:
    `normal`, just saw one whitespace `w`, or inside a splitting run. -/
inductive SpState where
  | normal
  | one (w : Char)
  | run

/-- Scanner for `re.split(r"\s\s+" with two-or-more, s)`: a maximal
    whitespace run of length at least two separates segments; a lone
    whitespace character stays inside its segment. -/
def sws2 : List Char → SpState → List Char → List (List Char)
  | cur, .normal, [] => [cur]
  | cur, .one w, [] => [cur ++ [w]]
  | cur, .run, [] => [cur, []]
  | cur, .normal, c :: cs =>
    if pyIsSpace c then sws2 cur (.one c) cs else sws2 (cur ++ [c]) .normal cs
  | cur, .one w, c :: cs =>
    if pyIsSpace c then sws2 cur .run cs else sws2 (cur ++ [w, c]) .normal cs
  | cur, .run, c :: cs =>
    if pyIsSpace c then sws2 cur .run cs else cur :: sws2 [c] .normal cs

/-- `re.split(r"\s" repeated two-or-more `, title_line)` (line 276). -/
def splitWs2 (s : String) : List (List Char) := sws2 [] .normal s.toList

/-! ### Word-boundary matching (regex \b, case-insensitive literal) -/

/-- Does the lowercase literal `tl`, wrapped in \b..\b, match at the
    current position?  `prev` is the character just before the position;
    boundaries follow Python: \b holds where exactly one side is a \w
    character (string edges count as non-word). -/
def wwMatchesHere (tl : List Char) (prev : Option Char) (hay : List Char) : Bool :=
  (isWordOpt prev != isWordOpt hay.head?)
    && ((hay.take tl.length).map Char.toLower == tl)
    && (isWordOpt (if tl.isEmpty then prev else (hay.drop (tl.length - 1)).head?)
          != isWordOpt ((hay.drop tl.length).head?))

/-- `re.search` of `\b tl \b` over the haystack: try every position. -/
def wwSearchGo (tl : List Char) (prev : Option Char) : List Char → Bool
  | [] => wwMatchesHere tl prev []
  | c :: cs => wwMatchesHere tl prev (c :: cs) || wwSearchGo tl (some c) cs

def wwSearch (tl : List Char) (hay : List Char) : Bool := wwSearchGo tl none hay

/-! ### TagMatcher: `detect_project_tags` (lines 171-188) -/

def detectGo (hayLower : List Char) : List String → List String
  | [] => []
  | tag :: rest =>
    if wwSearch (pyLowerStr tag).toList hayLower then tag :: detectGo hayLower rest
    else detectGo hayLower rest

/-- `detect_project_tags`: pad the blob with one space on each side,
    lowercase it, and keep each vocabulary entry whose lowercase escaped
    literal matches with \b boundaries. -/
def detect_project_tags (text_blob : String) (tag_vocab : List String) : List String :=
  if tag_vocab.isEmpty then []
  else detectGo (pyLowerStr (" " ++ text_blob ++ " ")).toList tag_vocab

/-! ### Title splitting (lines 269-287) -/

/-- The alternatives of `\b(1st|2nd|3rd)\b|\bplace\b|\bwinner\b|\bprize\b`. -/
def awardKws : List (List Char) :=
  ["1st", "2nd", "3rd", "place", "winner", "prize"].map String.toList

/-- `re.search(..., title_line, re.I)` returning the match start. -/
def awardKwSearchGo (prev : Option Char) (pos : Nat) : List Char → Option Nat
  | [] => if awardKws.any (fun kw => wwMatchesHere kw prev []) then some pos else none
  | c :: cs =>
    if awardKws.any (fun kw => wwMatchesHere kw prev (c :: cs)) then some pos
    else awardKwSearchGo (some c) (pos + 1) cs

def awardKwSearch (s : String) : Option Nat := awardKwSearchGo none 0 s.toList

/-- Lines 274-287, operating on the already-cleaned title line: split on a
    run of two-or-more whitespace if one exists, else search for an award
    keyword and split at its start. -/
def splitTitle (title_line : String) : String × String :=
  let m := splitWs2 title_line
  if 2 ≤ m.length then
    (pyStripStr (m.headD []).asString,
     cleanSpaces (joinSpace ((m.drop 1).map List.asString)))
  else
    match awardKwSearch title_line with
    | some pos =>
      (rstripCommas (pyStripStr (title_line.toList.take pos).asString),
       pyStripStr (title_line.toList.drop pos).asString)
    | none => (title_line, "")

/-- Lines 269-287 as one step: the recovered raw title line is first
    whitespace-normalised by `_clean_spaces` (line 271), then split. -/
def titleNameAwards (raw : String) : String × String := splitTitle (cleanSpaces raw)

/-- The keyword branch alone (lines 280-287), for stating what the title
    split actually computes. -/
def titleKwBranch (cleaned : String) : String × String :=
  match awardKwSearch cleaned with
  | some pos =>
    (rstripCommas (pyStripStr (cleaned.toList.take pos).asString),
     pyStripStr (cleaned.toList.drop pos).asString)
  | none => (cleaned, "")

/-! ### ProjectRecord and deduplication (lines 33-41, 311-321) -/

structure Project where
  year : Int
  name : String
  awards : String
  description : String
  team : String
  link : String
  tags : List String
deriving DecidableEq

/-- The dedup key `(p.year, p.name.lower(), p.link)` (line 315). -/
def projKey (p : Project) : Int × String × String := (p.year, pyLowerStr p.name, p.link)

/-- The dedup loop (lines 312-319) with its running `seen` set. -/
def dedupGo (seen : List (Int × String × String)) : List Project → List Project
  | [] => []
  | p :: ps =>
    if projKey p ∈ seen then dedupGo seen ps
    else p :: dedupGo (projKey p :: seen) ps

def dedupProjects (ps : List Project) : List Project := dedupGo [] ps

/-- Modelled from the spec's words for the refinement statement of the
    dedup step: keep each record and drop every later record with the
    same key ("duplicates are dropped, first occurrence wins"). -/
def specFirstOccurDedup : List Project → List Project
  | [] => []
  | p :: ps =>
    p :: specFirstOccurDedup (ps.filter (fun q => decide (projKey q ≠ projKey p)))
termination_by l => l.length
decreasing_by
  exact Nat.lt_succ_of_le (List.length_filter_le _ _)

/-! ### Per-block field recovery (lines 228-309) -/

/-- Python `str.splitlines()` (common terminators \n, \r, \r\n). -/
def pySplitlinesGo (cur : List Char) : List Char → List (List Char)
  | [] => if cur.isEmpty then [] else [cur]
  | '\r' :: '\n' :: cs => cur :: pySplitlinesGo [] cs
  | '\r' :: cs => cur :: pySplitlinesGo [] cs
  | '\n' :: cs => cur :: pySplitlinesGo [] cs
  | c :: cs => pySplitlinesGo (cur ++ [c]) cs

def pySplitlines (s : String) : List String := (pySplitlinesGo [] s.toList).map List.asString

/-- Python `str.split()` with no argument: whitespace runs, no empties. -/
def pySplitWsGo (cur : List Char) : List Char → List (List Char)
  | [] => if cur.isEmpty then [] else [cur]
  | c :: cs =>
    if pyIsSpace c then
      if cur.isEmpty then pySplitWsGo [] cs else cur :: pySplitWsGo [] cs
    else pySplitWsGo (cur ++ [c]) cs

def pySplitWs (s : String) : List String := (pySplitWsGo [] s.toList).map List.asString

/-- Team-line heuristic (lines 237-242): a comma or the token " and "
    (case-insensitive), and at most 180 characters. -/
def teamPred (ln : String) : Bool :=
  (containsSub [','] ln.toList || containsSub " and ".toList (pyLowerStr ln).toList)
    && decide (ln.length ≤ 180)

/-- The tail-to-head scan for the team line: last index satisfying the
    heuristic. -/
def findTeamIdx (tail : List String) : Option Nat :=
  ((List.range tail.length).reverse).find? (fun k => teamPred (tail.getD k ""))

/-- Description stop condition "short single capitalised token" (line 254). -/
def breakHeadingLine (ln : String) : Bool :=
  ((pySplitWs ln).length == 1)
    && (match ln.toList with
        | c :: _ => c.isUpper
        | [] => false)
    && decide (ln.length ≤ 20)

def sumLens (xs : List String) : Nat := (xs.map String.length).sum

/-- The description accumulation loop (lines 248-261).  The counter `n`
    stands for `k + 1`, so `n = 0` encodes the loop having walked past
    index 0 (`k = -1`); the result is the accumulated lines and the final
    value of `k` (`none` for `-1`). -/
def descLoop (tail : List String) : Nat → List String → List String × Option Nat
  | 0, desc => (desc, none)
  | Nat.succ m, desc =>
    let ln := tail.getD m ""
    if pyLowerStr ln == "projects" then (desc, some m)
    else if breakHeadingLine ln then (desc, some m)
    else if containsSub [','] ln.toList && decide (ln.length ≤ 120) then (desc, some m)
    else
      let desc' := ln :: desc
      if 320 < sumLens desc' then (desc', some m)
      else descLoop tail m desc'

/-- The block's stripped non-empty lines (line 230). -/
def blockLines (block : String) : List String :=
  ((pySplitlines block).map pyStripStr).filter (fun ln => ln != "")

/-- The description text (line 262). -/
def blockDescription (descLines : List String) : String :=
  if descLines.isEmpty then "" else cleanSpaces (joinSpace descLines)

/-- The title index (lines 265-267): the final loop index, or
    `max(0, team_idx - 1)` when the loop ran past the front (Nat
    subtraction truncates at 0). -/
def blockTitleIdx (teamIdx : Nat) (kEnd : Option Nat) : Nat :=
  match kEnd with
  | some k => k
  | none => teamIdx - 1

/-- The guarded title-line selection (lines 269-270). -/
def blockTitleLine (tail : List String) (titleIdx : Nat) : String :=
  if titleIdx < tail.length then tail.getD titleIdx "" else tail.getD 0 ""

/-- Relative-link resolution against the year origin (lines 289-290). -/
def resolveHref (year : Int) (href : String) : String :=
  if pyStartsWith href "/" then "https://" ++ toString year ++ ".lauzhack.com" ++ href
  else href

/-- One iteration of the per-block loop (lines 228-309): recover team,
    description, title, name/awards, resolved link and tags from one text
    block, or skip the block. -/
def processBlock (year : Int) (tagVocab : List String) (href block : String) : Option Project :=
  let lines := blockLines block
  if lines.isEmpty then none
  else
    let tail := lines.drop (lines.length - 12)
    let teamIdx := (findTeamIdx tail).getD (tail.length - 1)
    let team := tail.getD teamIdx ""
    let dl := descLoop tail teamIdx []
    let description := blockDescription dl.1
    let na := splitTitle (cleanSpaces (blockTitleLine tail (blockTitleIdx teamIdx dl.2)))
    let tags := detect_project_tags (joinSpace [na.1, na.2, description]) tagVocab
    if pyLowerStr na.1 == "projects" then none
    else some { year := year, name := na.1, awards := na.2, description := description,
                team := team, link := resolveHref year href, tags := tags }

/-- The per-block half of `parse_projects_generic` (lines 226-321): the
    candidate blocks (indexed as `blocks.get(i, "")`) are processed in
    href order, then deduplicated. -/
def parse_projects_from_blocks (year : Int) (tagVocab : List String)
    (hrefs : List String) (blocks : Nat → String) : List Project :=
  dedupProjects ((hrefs.enum).filterMap (fun ie => processBlock year tagVocab ie.2 (blocks ie.1)))

/-! ### EventMetadataExtractor schedule (lines 348-367) -/

structure ScheduleEntry where
  day : String
  time : String
  item : String
deriving DecidableEq

/-- `\d` one-or-twice then `:` then `\d\d`: the regex backtracks from a
    two-digit hour to a one-digit hour.  Returns the matched characters
    and the rest. -/
def matchHM : List Char → Option (List Char × List Char)
  | a :: b :: rest =>
    if a.isDigit then
      if b.isDigit then
        match rest with
        | ':' :: m1 :: m2 :: r =>
          if m1.isDigit && m2.isDigit then some ([a, b, ':', m1, m2], r) else none
        | _ => none
      else if b = ':' then
        match rest with
        | m1 :: m2 :: r =>
          if m1.isDigit && m2.isDigit then some ([a, ':', m1, m2], r) else none
        | _ => none
      else none
    else none
  | _ => none

/-- `(.*)$` tail: `.` cannot cross a newline and `$` also matches just
    before one final newline, so the rest must contain no newline except
    possibly a single trailing one (then excluded from the group). -/
def tailNoNL (cs : List Char) : Option (List Char) :=
  if '\n' ∈ cs then
    match cs.getLast? with
    | some '\n' => if '\n' ∈ cs.dropLast then none else some cs.dropLast
    | _ => none
  else some cs

/-- `time_item_re.match(ln)` for `^(\d...\d:\d\d\s*-\s*\d...\d:\d\d)\s+(.*)$`
    (line 352): returns (group 1, group 2). -/
def timeItemMatch (s : String) : Option (String × String) :=
  match matchHM s.toList with
  | none => none
  | some (hm1, r1) =>
    let ws1 := r1.takeWhile pyIsSpace
    match r1.dropWhile pyIsSpace with
    | '-' :: r3 =>
      let ws2 := r3.takeWhile pyIsSpace
      match matchHM (r3.dropWhile pyIsSpace) with
      | none => none
      | some (hm2, r5) =>
        match r5 with
        | c :: _ =>
          if pyIsSpace c then
            match tailNoNL (r5.dropWhile pyIsSpace) with
            | some item =>
              some ((hm1 ++ ws1 ++ ['-'] ++ ws2 ++ hm2).asString, item.asString)
            | none => none
          else none
        | [] => none
    | _ => none

/-- A line that is exactly a recognised day name, case-insensitively
    (line 356). -/
def isDayLine (ln : String) : Bool :=
  pyLowerStr ln == "saturday" || pyLowerStr ln == "sunday"

/-- The schedule loop of `parse_hackathon_home` (lines 350-367) with its
    current-day cursor. -/
def schedGo (cur : Option String) : List String → List ScheduleEntry
  | [] => []
  | ln :: rest =>
    if isDayLine ln then schedGo (some ln) rest
    else if pyEndsWith (pyLowerStr ln) "day" && isDayLine ln then
      -- second day-heading check of the source (lines 360-362); it
      -- repeats the first condition and is unreachable
      schedGo (some ln) rest
    else
      match timeItemMatch ln, cur with
      | some (t, it), some d =>
        { day := d, time := t, item := pyStripStr it } :: schedGo cur rest
      | _, _ => schedGo cur rest

/-- The schedule part of `parse_hackathon_home`, over the page's stripped
    non-empty lines. -/
def parse_schedule (lines : List String) : List ScheduleEntry := schedGo none lines

/-! ### TagVocabularyExtractor front end:
    `extract_challenge_tags_from_page` (lines 102-168) -/

/-- A rendered document node: a text node or an element with children
    (the BeautifulSoup root is modelled as an element). -/
inductive HNode where
  | text (s : String)
  | elem (tag : String) (children : List HNode)

/-- `re.compile(r"\bChallenge\b", re.I).search(s)` on one text node. -/
def challengeMatches (s : String) : Bool := wwSearch "challenge".toList s.toList

/-- Worklist traversal of the document in order, each frame holding
    (grandparent, parent, remaining children): find the first text node
    matching the Challenge pattern and return its parent and grandparent
    (`soup.find_all(string=...)` then `node.parent`, lines 112-116).
    The fuel argument only bounds the traversal; the wrapper passes the
    document's size, which the traversal never exhausts. -/
def findCtxW (fuel : Nat) (stack : List (Option HNode × HNode × List HNode)) :
    Option (HNode × Option HNode) :=
  match fuel with
  | 0 => none
  | fuel' + 1 =>
    match stack with
    | [] => none
    | (_, _, []) :: rest => findCtxW fuel' rest
    | (gp, p, .text s :: ns) :: rest =>
      if challengeMatches s then some (p, gp)
      else findCtxW fuel' ((gp, p, ns) :: rest)
    | (gp, p, .elem t cs :: ns) :: rest =>
      findCtxW fuel' ((some p, .elem t cs, cs) :: (gp, p, ns) :: rest)

/-- Same traversal, deciding whether any text node matches. -/
def hasChW (fuel : Nat) (stack : List (Option HNode × HNode × List HNode)) : Bool :=
  match fuel with
  | 0 => false
  | fuel' + 1 =>
    match stack with
    | [] => false
    | (_, _, []) :: rest => hasChW fuel' rest
    | (gp, p, .text s :: ns) :: rest =>
      if challengeMatches s then true
      else hasChW fuel' ((gp, p, ns) :: rest)
    | (gp, p, .elem t cs :: ns) :: rest =>
      hasChW fuel' ((some p, .elem t cs, cs) :: (gp, p, ns) :: rest)

mutual

/-- Size of a document node, used as traversal fuel. -/
def hnSize : HNode → Nat
  | .text _ => 1
  | .elem _ cs => 1 + hnSizeL cs

/-- Size of a child list. -/
def hnSizeL : List HNode → Nat
  | [] => 1
  | n :: ns => 1 + hnSize n + hnSizeL ns

end

/-- Whether any text node of the document matches the Challenge pattern. -/
def hasChallengeText (soup : HNode) : Bool :=
  match soup with
  | .text s => challengeMatches s
  | .elem t cs => hasChW (hnSize (HNode.elem t cs)) [(none, .elem t cs, cs)]

/-- The node search of lines 112-116. -/
def findChallengeCtx (soup : HNode) : Option (HNode × Option HNode) :=
  match soup with
  | .text _ => none
  | .elem t cs => findCtxW (hnSize (HNode.elem t cs)) [(none, .elem t cs, cs)]

/-- `extract_challenge_tags_from_page` with the label-harvesting tail of
    the function (lines 121-168, which runs only when a Challenge text
    node was found) abstracted as a continuation on the found node's
    parent and grandparent.  When no text node matches, line 119 returns
    the empty list before the tail is reached. -/
def extract_challenge_tags_core (k : HNode → Option HNode → List String)
    (soup : HNode) : List String :=
  match findChallengeCtx soup with
  | none => []
  | some (parent, gp) => k parent gp


/-! ## Helper lemmas -/

theorem detectGo_eq_filter (hay : List Char) :
    ∀ vocab : List String,
      detectGo hay vocab = vocab.filter (fun t => wwSearch (pyLowerStr t).toList hay) := by
  intro vocab
  induction vocab with
  | nil => rfl
  | cons t ts ih =>
    by_cases h : wwSearch (pyLowerStr t).toList hay <;>
      simp [detectGo, List.filter_cons, h, ih]

theorem mem_of_mem_dedupGo (ps : List Project) :
    ∀ seen p, p ∈ dedupGo seen ps → p ∈ ps := by
  induction ps with
  | nil => intro seen p h; simp [dedupGo] at h
  | cons q qs ih =>
    intro seen p h
    by_cases hk : projKey q ∈ seen
    · simp only [dedupGo, if_pos hk] at h
      exact List.mem_cons_of_mem _ (ih _ _ h)
    · simp only [dedupGo, if_neg hk, List.mem_cons] at h
      rcases h with h | h
      · exact h ▸ List.mem_cons_self _ _
      · exact List.mem_cons_of_mem _ (ih _ _ h)

theorem dedupGo_nodup (ps : List Project) :
    ∀ seen, ((dedupGo seen ps).map projKey).Nodup ∧
      ∀ k ∈ (dedupGo seen ps).map projKey, k ∉ seen := by
  induction ps with
  | nil => intro seen; simp [dedupGo]
  | cons q qs ih =>
    intro seen
    by_cases hk : projKey q ∈ seen
    · simpa only [dedupGo, if_pos hk] using ih seen
    · have ih' := ih (projKey q :: seen)
      simp only [dedupGo, if_neg hk, List.map_cons, List.nodup_cons, List.mem_cons] at *
      refine ⟨⟨fun hmem => ?_, ih'.1⟩, fun k hk' => ?_⟩
      · exact (ih'.2 _ hmem) (Or.inl rfl)
      · rcases hk' with h | h
        · exact h ▸ hk
        · exact fun hs => (ih'.2 _ h) (Or.inr hs)

theorem dedupGo_id_of_nodup (ps : List Project) :
    ∀ seen, (ps.map projKey).Nodup → (∀ k ∈ ps.map projKey, k ∉ seen) →
      dedupGo seen ps = ps := by
  induction ps with
  | nil => intro seen _ _; rfl
  | cons q qs ih =>
    intro seen hnd hdisj
    simp only [List.map_cons, List.nodup_cons] at hnd
    have hq : projKey q ∉ seen := hdisj _ (by simp)
    simp only [dedupGo, if_neg hq]
    refine congrArg (q :: ·) (ih _ hnd.2 ?_)
    intro k hkmem
    simp only [List.mem_cons, not_or]
    exact ⟨fun he => hnd.1 (he ▸ hkmem), hdisj _ (List.mem_cons_of_mem _ hkmem)⟩

theorem specFO_nil : specFirstOccurDedup [] = [] := by
  rw [specFirstOccurDedup.eq_def]

theorem specFO_cons (p : Project) (ps : List Project) :
    specFirstOccurDedup (p :: ps) =
      p :: specFirstOccurDedup (ps.filter (fun q => decide (projKey q ≠ projKey p))) := by
  rw [specFirstOccurDedup.eq_def]

theorem dedupGo_eq_specFO (ps : List Project) :
    ∀ seen, dedupGo seen ps =
      specFirstOccurDedup (ps.filter (fun q => decide (projKey q ∉ seen))) := by
  induction ps with
  | nil => intro seen; simp [dedupGo, specFO_nil]
  | cons q qs ih =>
    intro seen
    by_cases hk : projKey q ∈ seen
    · have h1 : dedupGo seen (q :: qs) = dedupGo seen qs := by
        simp [dedupGo, hk]
      have h2 : (q :: qs).filter (fun x => decide (projKey x ∉ seen)) =
          qs.filter (fun x => decide (projKey x ∉ seen)) := by
        simp [List.filter_cons, hk]
      rw [h1, h2, ih seen]
    · have h1 : dedupGo seen (q :: qs) = q :: dedupGo (projKey q :: seen) qs := by
        simp [dedupGo, hk]
      have h2 : (q :: qs).filter (fun x => decide (projKey x ∉ seen)) =
          q :: qs.filter (fun x => decide (projKey x ∉ seen)) := by
        simp [List.filter_cons, hk]
      rw [h1, h2, specFO_cons, ih (projKey q :: seen), List.filter_filter]
      refine congrArg (q :: ·) (congrArg specFirstOccurDedup (List.filter_congr ?_))
      intro a _
      by_cases e1 : projKey a = projKey q <;> by_cases e2 : projKey a ∈ seen <;>
        simp [e1, e2, List.mem_cons]

theorem schedGo_day_step (cur : Option String) (ln : String) (rest : List String)
    (h : isDayLine ln = true) : schedGo cur (ln :: rest) = schedGo (some ln) rest := by
  simp [schedGo, h]

theorem schedGo_time_step (d ln : String) (rest : List String) (t it : String)
    (h1 : isDayLine ln = false) (h2 : timeItemMatch ln = some (t, it)) :
    schedGo (some d) (ln :: rest) =
      { day := d, time := t, item := pyStripStr it } :: schedGo (some d) rest := by
  simp [schedGo, h1, h2]

theorem schedGo_nonday_none_step (ln : String) (rest : List String)
    (h1 : isDayLine ln = false) :
    schedGo none (ln :: rest) = schedGo none rest := by
  simp only [schedGo, h1, Bool.and_false, Bool.false_eq_true, if_false]
  cases htm : timeItemMatch ln <;> simp

theorem schedGo_none_of_noday (lines : List String) :
    (∀ ln ∈ lines, isDayLine ln = false) → schedGo none lines = [] := by
  induction lines with
  | nil => intro _; rfl
  | cons ln rest ih =>
    intro h
    have h1 : isDayLine ln = false := h ln (by simp)
    have h2 : ∀ l ∈ rest, isDayLine l = false := fun l hl => h l (List.mem_cons_of_mem _ hl)
    rw [schedGo_nonday_none_step ln rest h1]
    exact ih h2

theorem hasChW_false_findCtxW_none :
    ∀ fuel stack, hasChW fuel stack = false → findCtxW fuel stack = none := by
  intro fuel
  induction fuel with
  | zero => intro stack _; rfl
  | succ f ih =>
    intro stack h
    match stack with
    | [] => rfl
    | (gp, p, []) :: rest =>
      simp only [hasChW] at h
      simpa only [findCtxW] using ih _ h
    | (gp, p, .text s :: ns) :: rest =>
      simp only [hasChW] at h
      by_cases hc : challengeMatches s
      · simp [hc] at h
      · simp only [hc, if_false] at h
        simpa only [findCtxW, hc, if_false] using ih _ h
    | (gp, p, .elem t cs :: ns) :: rest =>
      simp only [hasChW] at h
      simpa only [findCtxW] using ih _ h

/-! ## Claim theorems -/

/-- C5 counterexample: as stated the claim is false, because the result can
    contain an entry more than once when the vocabulary itself repeats the
    entry — `detect_project_tags` filters the vocabulary, so a duplicated
    vocabulary entry that occurs once in the text appears twice. -/
theorem c5_tag_matcher_cex :
    detect_project_tags "We used AWS here" ["AWS", "AWS"] = ["AWS", "AWS"] ∧
      ¬ (detect_project_tags "We used AWS here" ["AWS", "AWS"]).Nodup := by
  decide

/-- C5 (amended): for every text and vocabulary the result is exactly the
    vocabulary filtered by whole-word case-insensitive occurrence in the
    space-padded lowercased text — hence a subset in vocabulary order,
    independent of how often an entry occurs in the text; when the
    vocabulary has no duplicate entries the result has none either; an
    empty vocabulary yields an empty result. -/
theorem c5_tag_matcher_amended :
    ∀ (text_blob : String) (tag_vocab : List String),
      detect_project_tags text_blob tag_vocab =
        tag_vocab.filter
          (fun tag => wwSearch (pyLowerStr tag).toList
            (pyLowerStr (" " ++ text_blob ++ " ")).toList) ∧
      (tag_vocab.Nodup → (detect_project_tags text_blob tag_vocab).Nodup) ∧
      (tag_vocab = [] → detect_project_tags text_blob tag_vocab = []) := by
  intro blob vocab
  have hfil : detect_project_tags blob vocab =
      vocab.filter
        (fun tag => wwSearch (pyLowerStr tag).toList
          (pyLowerStr (" " ++ blob ++ " ")).toList) := by
    cases vocab with
    | nil => rfl
    | cons t ts =>
      simp only [detect_project_tags, List.isEmpty_cons, Bool.false_eq_true, if_false]
      exact detectGo_eq_filter _ _
  refine ⟨hfil, fun hnd => ?_, fun he => by subst he; rfl⟩
  rw [hfil]
  exact hnd.filter _

/-- C5 witness: the amended theorem applied at a concrete duplicate-free
    vocabulary and at the empty vocabulary. -/
theorem c5_tag_matcher_wit :
    (detect_project_tags "We used AWS and kept SBB rolling" ["AWS", "SBB"]).Nodup ∧
      detect_project_tags "anything" ([] : List String) = [] :=
  ⟨(c5_tag_matcher_amended "We used AWS and kept SBB rolling" ["AWS", "SBB"]).2.1 (by decide),
   (c5_tag_matcher_amended "anything" []).2.2 rfl⟩

/-- C6: the dedup step equals the keep-first-occurrence function on the
    (year, lowercased name, link) key, its output has pairwise distinct
    keys, and it is idempotent. -/
theorem c6_dedup_idempotent_unique :
    ∀ ps : List Project,
      dedupProjects ps = specFirstOccurDedup ps ∧
      ((dedupProjects ps).map projKey).Nodup ∧
      dedupProjects (dedupProjects ps) = dedupProjects ps := by
  intro ps
  have hspec : dedupProjects ps = specFirstOccurDedup ps := by
    rw [dedupProjects, dedupGo_eq_specFO]
    congr 1
    rw [List.filter_eq_self]
    intro a _
    simp
  have hnd := (dedupGo_nodup ps []).1
  have hid : dedupProjects (dedupProjects ps) = dedupProjects ps := by
    apply dedupGo_id_of_nodup
    · exact hnd
    · intro k _
      exact List.not_mem_nil k
  exact ⟨hspec, hnd, hid⟩

/-- C7: a line that is exactly a recognised day name sets the cursor; a
    later line matching the time pattern while a day is set appends one
    entry with that day, time and item; with no day heading the schedule
    is empty; and the spec's end-to-end example produces exactly its one
    entry. -/
theorem c7_schedule_extraction :
    (∀ lines : List String, (∀ ln ∈ lines, isDayLine ln = false) →
      parse_schedule lines = []) ∧
    parse_schedule ["Saturday", "8:00-9:30 Check in and breakfast"] =
      [{ day := "Saturday", time := "8:00-9:30", item := "Check in and breakfast" }] ∧
    (∀ (cur : Option String) (ln : String) (rest : List String), isDayLine ln = true →
      schedGo cur (ln :: rest) = schedGo (some ln) rest) ∧
    (∀ (d ln : String) (rest : List String) (t it : String), isDayLine ln = false →
      timeItemMatch ln = some (t, it) →
      schedGo (some d) (ln :: rest) =
        { day := d, time := t, item := pyStripStr it } :: schedGo (some d) rest) := by
  refine ⟨fun lines h => schedGo_none_of_noday lines h, by decide,
    fun cur ln rest h => schedGo_day_step cur ln rest h,
    fun d ln rest t it h1 h2 => schedGo_time_step d ln rest t it h1 h2⟩

/-- C7 witness: the theorem applied at concrete inputs — time-pattern
    lines with no preceding day heading yield no entries, and a
    time-pattern line under a set day appends its entry. -/
theorem c7_schedule_extraction_wit :
    parse_schedule ["8:00-9:30 Check in and breakfast", "intro talk"] = [] ∧
    schedGo (some "Saturday") ["8:00-9:30 Check in and breakfast"] =
      [{ day := "Saturday", time := "8:00-9:30", item := "Check in and breakfast" }] := by
  constructor
  · exact c7_schedule_extraction.1 ["8:00-9:30 Check in and breakfast", "intro talk"]
      (by decide)
  · rw [c7_schedule_extraction.2.2.2 "Saturday" "8:00-9:30 Check in and breakfast" []
      "8:00-9:30" "Check in and breakfast" (by decide) (by decide)]
    decide

/-- C8: for every document in which the Challenge label matches no text
    node, vocabulary extraction returns the empty sequence — whatever the
    label-harvesting tail would compute. -/
theorem c8_vocab_degradation :
    ∀ (soup : HNode) (k : HNode → Option HNode → List String),
      hasChallengeText soup = false → extract_challenge_tags_core k soup = [] := by
  intro soup k h
  cases soup with
  | text s => rfl
  | elem t cs =>
    simp only [hasChallengeText] at h
    have hf := hasChW_false_findCtxW_none _ _ h
    simp only [extract_challenge_tags_core, findChallengeCtx, hf]

/-- C8 witness: the theorem applied to a concrete Challenge-free document
    and a continuation that would return a non-empty vocabulary. -/
theorem c8_vocab_degradation_wit :
    extract_challenge_tags_core (fun _ _ => ["stub"])
      (.elem "main" [.text "hello world", .elem "div" [.text "no label"]]) = [] := by
  apply c8_vocab_degradation
  simp only [hasChallengeText, hnSize, hnSizeL]
  decide

/-! ## Lemmas for the title split (C2): `_clean_spaces` output has no run
    of two whitespace characters, so the gap-split branch never fires. -/

theorem collapseWs_true_head (cs : List Char) :
    ∀ c ∈ (collapseWs true cs).head?, pyIsSpace c = false := by
  induction cs with
  | nil => intro c hc; simp [collapseWs] at hc
  | cons a as ih =>
    intro c hc
    by_cases h : pyIsSpace a
    · rw [show collapseWs true (a :: as) = collapseWs true as from by simp [collapseWs, h]] at hc
      exact ih c hc
    · rw [show collapseWs true (a :: as) = a :: collapseWs false as from by
        simp [collapseWs, h]] at hc
      simp only [List.head?_cons, Option.mem_def, Option.some.injEq] at hc
      subst hc
      simpa using h

theorem collapseWs_chain (cs : List Char) :
    ∀ b : Bool, List.Chain' (fun a c => pyIsSpace a = false ∨ pyIsSpace c = false)
      (collapseWs b cs) := by
  induction cs with
  | nil => intro b; simp [collapseWs]
  | cons a as ih =>
    intro b
    by_cases h : pyIsSpace a
    · cases b with
      | true => simpa [collapseWs, h] using ih true
      | false =>
        rw [show collapseWs false (a :: as) = ' ' :: collapseWs true as from by
          simp [collapseWs, h]]
        rw [List.chain'_cons']
        exact ⟨fun y hy => Or.inr (collapseWs_true_head as y hy), ih true⟩
    · rw [show collapseWs b (a :: as) = a :: collapseWs false as from by
        simp [collapseWs, h]]
      rw [List.chain'_cons']
      exact ⟨fun y _ => Or.inl (by simpa using h), ih false⟩

theorem chain_pyStripL {cs : List Char}
    (h : List.Chain' (fun a c => pyIsSpace a = false ∨ pyIsSpace c = false) cs) :
    List.Chain' (fun a c => pyIsSpace a = false ∨ pyIsSpace c = false) (pyStripL cs) := by
  have h1 := h.suffix (List.dropWhile_suffix pyIsSpace)
  have h2 : List.Chain' (fun a c => pyIsSpace a = false ∨ pyIsSpace c = false)
      ((cs.dropWhile pyIsSpace).reverse) :=
    List.chain'_reverse.mpr (h1.imp fun a b hab => Or.symm hab)
  have h3 := h2.suffix (List.dropWhile_suffix pyIsSpace)
  exact List.chain'_reverse.mpr (h3.imp fun a b hab => Or.symm hab)

theorem cleanSpacesL_chain (cs : List Char) :
    List.Chain' (fun a c => pyIsSpace a = false ∨ pyIsSpace c = false) (cleanSpacesL cs) :=
  chain_pyStripL (collapseWs_chain cs false)

theorem sws2_of_chain :
    ∀ (l cur : List Char),
      List.Chain' (fun a c => pyIsSpace a = false ∨ pyIsSpace c = false) l →
      sws2 cur .normal l = [cur ++ l]
  | [], cur, _ => by simp [sws2]
  | [c], cur, _ => by by_cases h : pyIsSpace c <;> simp [sws2, h]
  | c1 :: c2 :: cs, cur, h => by
    rw [List.chain'_cons] at h
    by_cases h1 : pyIsSpace c1
    · have hc2 : pyIsSpace c2 = false := by
        rcases h.1 with hh | hh
        · rw [h1] at hh; cases hh
        · exact hh
      rw [show sws2 cur .normal (c1 :: c2 :: cs) = sws2 (cur ++ [c1, c2]) .normal cs from by
        simp [sws2, h1, hc2]]
      rw [sws2_of_chain cs (cur ++ [c1, c2]) h.2.tail]
      simp
    · rw [show sws2 cur .normal (c1 :: c2 :: cs) = sws2 (cur ++ [c1]) .normal (c2 :: cs) from by
        simp [sws2, h1]]
      rw [sws2_of_chain (c2 :: cs) (cur ++ [c1]) h.2]
      simp

theorem splitWs2_of_clean (s : String) :
    splitWs2 (cleanSpaces s) = [(cleanSpaces s).toList] := by
  have : (cleanSpaces s).toList = cleanSpacesL s.toList := rfl
  rw [splitWs2, this]
  exact sws2_of_chain _ [] (cleanSpacesL_chain s.toList)

/-- C2 counterexample: the recovered title line "Dog  Cat" contains two
    consecutive spaces, so the claim requires name "Dog" and awards "Cat";
    the code whitespace-normalises the line before splitting (line 271),
    finds no award keyword, and yields name "Dog Cat" with empty awards. -/
theorem c2_title_split_cex :
    containsSub "  ".toList "Dog  Cat".toList = true ∧
    titleNameAwards "Dog  Cat" = ("Dog Cat", "") ∧
    titleNameAwards "Dog  Cat" ≠ ("Dog", "Cat") := by decide

/-- C2 (amended): the title line is whitespace-collapsed before the split,
    so the two-or-more-space branch never fires (the split of the cleaned
    line is always a single segment) and the name/awards always come from
    the award-keyword branch applied to the cleaned line; the EcoTrack
    example still yields name "EcoTrack" and awards
    "1st place, Best Sustainability Hack", via that branch. -/
theorem c2_title_split_amended :
    ∀ raw : String,
      splitWs2 (cleanSpaces raw) = [(cleanSpaces raw).toList] ∧
      titleNameAwards raw = titleKwBranch (cleanSpaces raw) ∧
      titleNameAwards "EcoTrack        1st place, Best Sustainability Hack" =
        ("EcoTrack", "1st place, Best Sustainability Hack") := by
  intro raw
  have hsp := splitWs2_of_clean raw
  refine ⟨hsp, ?_, by decide⟩
  rw [titleNameAwards, splitTitle, hsp]
  simp only [List.length_singleton]
  rw [if_neg (by norm_num)]
  rfl

/-! ## Lemmas for the aggregator (C1, C3, C9) -/

theorem readmeTry_of_no200 (o : TextOutcome) (fb : String)
    (h : ∀ t, o ≠ TextOutcome.resp 200 t) : readmeTry o fb = fb := by
  cases o with
  | exc => rfl
  | resp s t =>
    have hs : s ≠ 200 := fun e => h t (by rw [e])
    simp [readmeTry, hs]

/-- C1 counterexample: the step-1 metadata call succeeds (HTTP 200) with
    an empty JSON-object body, yet no profile is produced —
    `extract_github_data` rejects the falsy metadata dict at line 192 —
    refuting the claim's "if and only if the metadata call succeeds". -/
theorem c1_result_assembly_cex :
    extract_github_data "https://github.com/acme/widget"
      { meta := .resp 200 (some (.obj [])), lastC := .exc, firstC := .exc,
        firstC2 := .exc, contrib := .exc, readme1 := .exc, readme2 := .exc,
        readme3 := .exc } true = .ok none := by
  rfl

/-- C1 (amended): for a URL whose identifier parses, a profile is produced
    if and only if the metadata call returns status 200 with a non-empty
    JSON-object body (404, other statuses, exceptions, non-object and
    empty-object bodies all yield no profile); and when it does while the
    last-commit, first-commit and contributors calls raise and no README
    request returns 200, the profile has stars, forks, language,
    description, url and created/updated timestamps taken from the
    metadata object via `dict.get` with zero/empty defaults, empty
    first/last commit dates, zero contributors and empty readme. -/
theorem c1_result_assembly_amended :
    ∀ (url o r : String) (b : Behavior) (fr : Bool),
      extract_github_owner_repo url = some (o, r) →
      ((∃ d, extract_github_data url b fr = .ok (some d)) ↔
        ∃ kvs, b.meta = CallOutcome.resp 200 (some (Json.obj kvs)) ∧ kvs ≠ []) ∧
      (∀ kvs, b.meta = CallOutcome.resp 200 (some (Json.obj kvs)) → kvs ≠ [] →
        b.lastC = CallOutcome.exc → b.firstC = LinkCallOutcome.exc →
        b.contrib = LinkCallOutcome.exc →
        (∀ t, b.readme1 ≠ TextOutcome.resp 200 t) →
        (∀ t, b.readme2 ≠ TextOutcome.resp 200 t) →
        (∀ t, b.readme3 ≠ TextOutcome.resp 200 t) →
        extract_github_data url b fr = .ok (some
          { owner := o, repo := r,
            stars := pyDictGetD kvs "stargazers_count" (.num 0),
            forks := pyDictGetD kvs "forks_count" (.num 0),
            language := pyDictGetD kvs "language" (.str ""),
            description := pyDictGetD kvs "description" (.str ""),
            url := pyDictGetD kvs "html_url" (.str ""),
            created_at := pyDictGetD kvs "created_at" (.str ""),
            updated_at := pyDictGetD kvs "updated_at" (.str ""),
            first_commit_date := .str "", last_commit_date := .str "",
            contributors_count := 0, readme := "" })) := by
  intro url o r b fr hp
  obtain ⟨bm, bl, bf, bf2, bc, br1, br2, br3⟩ := b
  constructor
  · -- profile produced iff metadata is a 200 with a non-empty object body
    cases bm with
    | exc =>
      simp [extract_github_data, hp, fetch_complete_repo_data]
    | resp s body =>
      by_cases hs : s = 200
      · subst hs
        cases body with
        | none => simp [extract_github_data, hp, fetch_complete_repo_data]
        | some md =>
          cases md with
          | obj kvs =>
            cases kvs with
            | nil =>
              simp [extract_github_data, hp, fetch_complete_repo_data, pyTruthy]
            | cons kv kvs' =>
              constructor
              · intro _
                exact ⟨kv :: kvs', rfl, by simp⟩
              · intro _
                exact ⟨_, by
                  simp only [extract_github_data, hp, fetch_complete_repo_data, pyTruthy,
                    List.isEmpty_cons, Bool.not_false]
                  rfl⟩
          | null => simp [extract_github_data, hp, fetch_complete_repo_data]
          | bool bb => simp [extract_github_data, hp, fetch_complete_repo_data]
          | num n => simp [extract_github_data, hp, fetch_complete_repo_data]
          | str st => simp [extract_github_data, hp, fetch_complete_repo_data]
          | arr l => simp [extract_github_data, hp, fetch_complete_repo_data]
      · simp [extract_github_data, hp, fetch_complete_repo_data, hs]
  · -- all four subsequent calls failing: fields from metadata, rest defaults
    intro kvs hm hne hl hf hc hr1 hr2 hr3
    cases hm
    subst hl
    subst hf
    subst hc
    have hread : readmeField br1 br2 br3 = "" := by
      rw [readmeField, readmeTry_of_no200 br1 _ hr1, readmeTry_of_no200 br2 _ hr2,
        readmeTry_of_no200 br3 _ hr3]
    simp [extract_github_data, hp, fetch_complete_repo_data, pyTruthy, hne,
      lastCommitField, firstCommitField, contribField, hread]

/-- C1 witness: the amended theorem applied at a concrete URL and a
    behaviour whose metadata call succeeds with body
    `{"stargazers_count": 7, "language": "Python"}` while the last-commit,
    first-commit and contributors calls raise and the README requests
    raise or return 404. -/
theorem c1_result_assembly_wit :
    extract_github_data "https://github.com/acme/widget"
      { meta := .resp 200 (some (.obj [("stargazers_count", Json.num 7),
          ("language", Json.str "Python")])), lastC := .exc, firstC := .exc,
        firstC2 := .exc, contrib := .exc, readme1 := .exc, readme2 := .exc,
        readme3 := .resp 404 "nope" } true =
      .ok (some
        { owner := "acme", repo := "widget", stars := Json.num 7, forks := Json.num 0,
          language := Json.str "Python", description := Json.str "", url := Json.str "",
          created_at := Json.str "", updated_at := Json.str "",
          first_commit_date := Json.str "", last_commit_date := Json.str "",
          contributors_count := 0, readme := "" }) :=
  (c1_result_assembly_amended "https://github.com/acme/widget" "acme" "widget"
      { meta := .resp 200 (some (.obj [("stargazers_count", Json.num 7),
          ("language", Json.str "Python")])), lastC := .exc, firstC := .exc,
        firstC2 := .exc, contrib := .exc, readme1 := .exc, readme2 := .exc,
        readme3 := .resp 404 "nope" } true (by decide)).2
    [("stargazers_count", Json.num 7), ("language", Json.str "Python")]
    rfl (by simp) rfl rfl rfl (fun t h => by cases h) (fun t h => by cases h)
    (fun t h => by simp at h)

/-- C3: the typing invariant fails on the code.  With a successful
    metadata response whose body is the JSON object with "language" set to
    null — as the hosting API returns for repositories with no detected
    language — the constructed profile stores JSON null, not a string, in
    its language field: `dict.get(key, default)` substitutes the default
    only for a missing key, so the `language: str` dataclass annotation
    and the spec's never-null invariant are violated. -/
theorem c3_profile_typing_bug :
    extract_github_data "https://github.com/acme/widget"
      { meta := .resp 200 (some (.obj [("language", Json.null)])), lastC := .exc,
        firstC := .exc, firstC2 := .exc, contrib := .exc, readme1 := .exc,
        readme2 := .exc, readme3 := .exc } true =
      .ok (some
        { owner := "acme", repo := "widget", stars := Json.num 0, forks := Json.num 0,
          language := Json.null, description := Json.str "", url := Json.str "",
          created_at := Json.str "", updated_at := Json.str "",
          first_commit_date := Json.str "", last_commit_date := Json.str "",
          contributors_count := 0, readme := "" }) ∧
    (∀ s : String, Json.null ≠ Json.str s) :=
  ⟨rfl, fun s h => Json.noConfusion h⟩

theorem lookup_updAssoc (k : String) (v : GitHubRepoData) :
    ∀ (m : List (String × GitHubRepoData)) (k' : String),
      (updAssoc m k v).lookup k' = if k' = k then some v else m.lookup k' := by
  intro m
  induction m with
  | nil =>
    intro k'
    by_cases h : k' = k
    · have hb : (k' == k) = true := beq_iff_eq.mpr h
      simp [updAssoc, List.lookup, hb, h]
    · have hb : (k' == k) = false := beq_eq_false_iff_ne.mpr h
      simp [updAssoc, List.lookup, hb, h]
  | cons kv rest ih =>
    intro k'
    obtain ⟨k0, v0⟩ := kv
    by_cases h0 : k0 = k
    · subst h0
      by_cases h : k' = k0
      · have hb : (k' == k0) = true := beq_iff_eq.mpr h
        simp [updAssoc, List.lookup, hb, h]
      · have hb : (k' == k0) = false := beq_eq_false_iff_ne.mpr h
        simp [updAssoc, List.lookup, hb, h]
    · by_cases h : k' = k0
      · subst h
        have hb : (k' == k') = true := beq_iff_eq.mpr rfl
        have hk : ¬ k' = k := fun e => h0 (by rw [e])
        simp [updAssoc, List.lookup, h0, hb, hk]
      · have hb : (k' == k0) = false := beq_eq_false_iff_ne.mpr h
        simp [updAssoc, List.lookup, h0, hb, ih]

theorem extract_ok_of_safe (b : Behavior) (hb : metaBodySafe b = true)
    (url : String) (fr : Bool) : ∃ od, extract_github_data url b fr = .ok od := by
  cases hE : extract_github_data url b fr with
  | ok od => exact ⟨od, rfl⟩
  | error e =>
    exfalso
    obtain ⟨bm, bl, bf, bf2, bc, br1, br2, br3⟩ := b
    cases hp : extract_github_owner_repo url with
    | none => simp [extract_github_data, hp] at hE
    | some pr =>
      obtain ⟨o, r⟩ := pr
      cases bm with
      | exc => simp [extract_github_data, hp, fetch_complete_repo_data] at hE
      | resp s body =>
        by_cases hs : s = 200
        · subst hs
          cases body with
          | none => simp [extract_github_data, hp, fetch_complete_repo_data] at hE
          | some md =>
            cases md with
            | obj kvs =>
              cases kvs with
              | nil =>
                simp [extract_github_data, hp, fetch_complete_repo_data, pyTruthy] at hE
              | cons kv kvs' =>
                simp [extract_github_data, hp, fetch_complete_repo_data, pyTruthy] at hE
            | null => simp [metaBodySafe, Json.isObj] at hb
            | bool bb => simp [metaBodySafe, Json.isObj] at hb
            | num n => simp [metaBodySafe, Json.isObj] at hb
            | str st => simp [metaBodySafe, Json.isObj] at hb
            | arr l => simp [metaBodySafe, Json.isObj] at hb
        · simp [extract_github_data, hp, fetch_complete_repo_data, hs] at hE

theorem profOf_some_iff (bhv : String → Behavior) (fr : Bool) (u : String)
    (hb : metaBodySafe (bhv u) = true) (d : GitHubRepoData) :
    profOf bhv fr u = some d ↔ extract_github_data u (bhv u) fr = .ok (some d) := by
  rw [profOf]
  obtain ⟨od, hod⟩ := extract_ok_of_safe (bhv u) hb u fr
  rw [hod]
  simp

theorem batchGo_ok (bhv : String → Behavior) (fr : Bool) :
    ∀ (urls : List String) (acc : List (String × GitHubRepoData)) (tr : List BatchEvent),
      (∀ u ∈ urls, metaBodySafe (bhv u) = true) →
      ∃ m, batchGo bhv fr acc tr urls =
          .ok (m, tr ++ List.intersperse BatchEvent.sleep (urls.map BatchEvent.visit)) ∧
        ∀ u, m.lookup u =
          if u ∈ urls ∧ (profOf bhv fr u).isSome then profOf bhv fr u
          else acc.lookup u := by
  intro urls
  induction urls with
  | nil =>
    intro acc tr _
    refine ⟨acc, ?_, fun u => ?_⟩
    · simp [batchGo]
    · simp
  | cons url rest ih =>
    intro acc tr hsafe
    obtain ⟨od, hod⟩ := extract_ok_of_safe (bhv url) (hsafe url (by simp)) url fr
    have hrest : ∀ u ∈ rest, metaBodySafe (bhv u) = true :=
      fun u hu => hsafe u (List.mem_cons_of_mem _ hu)
    have hprof : profOf bhv fr url = od := by rw [profOf, hod]
    cases od with
    | some d =>
      obtain ⟨m, hm, hlk⟩ := ih (updAssoc acc url d)
        (tr ++ (if rest.isEmpty then [BatchEvent.visit url]
                else [BatchEvent.visit url, BatchEvent.sleep])) hrest
      refine ⟨m, ?_, ?_⟩
      · rw [show batchGo bhv fr acc tr (url :: rest) = batchGo bhv fr (updAssoc acc url d)
            (tr ++ (if rest.isEmpty then [BatchEvent.visit url]
                    else [BatchEvent.visit url, BatchEvent.sleep])) rest from by
          simp [batchGo, hod]]
        rw [hm]
        cases rest with
        | nil => simp [List.intersperse]
        | cons r rs => simp [List.intersperse]
      · intro u
        rw [hlk u]
        by_cases hmem : u ∈ rest ∧ (profOf bhv fr u).isSome
        · rw [if_pos hmem, if_pos ⟨List.mem_cons_of_mem _ hmem.1, hmem.2⟩]
        · rw [if_neg hmem]
          by_cases he : u = url
          · subst he
            rw [lookup_updAssoc, if_pos rfl,
              if_pos ⟨List.mem_cons_self _ _, by rw [hprof]; rfl⟩, hprof]
          · have hnotin : ¬ (u ∈ url :: rest ∧ (profOf bhv fr u).isSome) := by
              intro hcon
              rcases hcon with ⟨hin, hsome⟩
              rcases List.mem_cons.mp hin with h | h
              · exact he h
              · exact hmem ⟨h, hsome⟩
            rw [if_neg hnotin, lookup_updAssoc, if_neg he]
    | none =>
      obtain ⟨m, hm, hlk⟩ := ih acc
        (tr ++ (if rest.isEmpty then [BatchEvent.visit url]
                else [BatchEvent.visit url, BatchEvent.sleep])) hrest
      refine ⟨m, ?_, ?_⟩
      · rw [show batchGo bhv fr acc tr (url :: rest) = batchGo bhv fr acc
            (tr ++ (if rest.isEmpty then [BatchEvent.visit url]
                    else [BatchEvent.visit url, BatchEvent.sleep])) rest from by
          simp [batchGo, hod]]
        rw [hm]
        cases rest with
        | nil => simp [List.intersperse]
        | cons r rs => simp [List.intersperse]
      · intro u
        rw [hlk u]
        by_cases hmem : u ∈ rest ∧ (profOf bhv fr u).isSome
        · rw [if_pos hmem, if_pos ⟨List.mem_cons_of_mem _ hmem.1, hmem.2⟩]
        · rw [if_neg hmem]
          have hnotin : ¬ (u ∈ url :: rest ∧ (profOf bhv fr u).isSome) := by
            intro hcon
            rcases hcon with ⟨hin, hsome⟩
            rcases List.mem_cons.mp hin with h | h
            · rw [h, hprof] at hsome
              simp at hsome
            · exact hmem ⟨h, hsome⟩
          rw [if_neg hnotin]

/-- C9 counterexample: a URL that parses correctly but whose metadata call
    answers 200 with a non-object JSON body makes `extract_github_data`
    raise (line 149); the batch loop does not catch it, so the whole batch
    aborts before the second URL and no mapping is returned at all,
    refuting "the batch continues past it". -/
theorem c9_batch_enricher_cex :
    extract_github_owner_repo "https://github.com/acme/widget" = some ("acme", "widget") ∧
    extract_github_data_batch
      ["https://github.com/acme/widget", "https://github.com/other/repo"]
      (fun _ => { meta := .resp 200 (some (.arr [Json.num 1])), lastC := .exc,
                  firstC := .exc, firstC2 := .exc, contrib := .exc, readme1 := .exc,
                  readme2 := .exc, readme3 := .exc }) true = .error () ∧
    ∀ res, extract_github_data_batch
      ["https://github.com/acme/widget", "https://github.com/other/repo"]
      (fun _ => { meta := .resp 200 (some (.arr [Json.num 1])), lastC := .exc,
                  firstC := .exc, firstC2 := .exc, contrib := .exc, readme1 := .exc,
                  readme2 := .exc, readme3 := .exc }) true ≠ .ok res := by
  have h2 : extract_github_data_batch
      ["https://github.com/acme/widget", "https://github.com/other/repo"]
      (fun _ => { meta := .resp 200 (some (.arr [Json.num 1])), lastC := .exc,
                  firstC := .exc, firstC2 := .exc, contrib := .exc, readme1 := .exc,
                  readme2 := .exc, readme3 := .exc }) true = Except.error () := rfl
  exact ⟨by decide, h2, fun res h => by rw [h2] at h; cases h⟩

/-- C9 (amended): provided no metadata call returns a 200 with a
    non-object JSON body (as the hosting API guarantees for this
    endpoint), the batch produces a mapping that contains an entry for a
    URL exactly when identifier parsing and metadata aggregation both
    succeeded for it, URLs are processed strictly in input order, and the
    fixed inter-call delay is slept exactly between consecutive URLs —
    the event trace is the visits in input order interspersed with single
    sleeps, with none after the last. -/
theorem c9_batch_enricher_amended :
    ∀ (repo_urls : List String) (bhv : String → Behavior) (fr : Bool),
      (∀ u ∈ repo_urls, metaBodySafe (bhv u) = true) →
      ∃ m, extract_github_data_batch repo_urls bhv fr =
          .ok (m, List.intersperse BatchEvent.sleep (repo_urls.map BatchEvent.visit)) ∧
        ∀ u d, m.lookup u = some d ↔
          (u ∈ repo_urls ∧ extract_github_data u (bhv u) fr = .ok (some d)) := by
  intro urls bhv fr hsafe
  obtain ⟨m, hm, hlk⟩ := batchGo_ok bhv fr urls [] [] hsafe
  refine ⟨m, by simpa [extract_github_data_batch] using hm, fun u d => ?_⟩
  rw [hlk u]
  by_cases hmem : u ∈ urls ∧ (profOf bhv fr u).isSome
  · rw [if_pos hmem]
    constructor
    · intro h
      exact ⟨hmem.1, (profOf_some_iff bhv fr u (hsafe u hmem.1) d).mp h⟩
    · intro h
      exact (profOf_some_iff bhv fr u (hsafe u hmem.1) d).mpr h.2
  · rw [if_neg hmem]
    constructor
    · intro h
      simp at h
    · intro h
      exfalso
      apply hmem
      refine ⟨h.1, ?_⟩
      rw [(profOf_some_iff bhv fr u (hsafe u h.1) d).mpr h.2]
      rfl

/-- C9 witness: the amended theorem applied to a concrete batch of one
    resolvable URL and one URL that fails identifier parsing. -/
theorem c9_batch_enricher_wit :
    ∃ m, extract_github_data_batch
        ["https://github.com/acme/widget", "https://example.com/not-github"]
        (fun u => if u = "https://github.com/acme/widget" then
            { meta := .resp 200 (some (.obj [("stargazers_count", Json.num 7)])),
              lastC := .exc, firstC := .exc, firstC2 := .exc, contrib := .exc,
              readme1 := .exc, readme2 := .exc, readme3 := .exc }
          else
            { meta := .exc, lastC := .exc, firstC := .exc, firstC2 := .exc,
              contrib := .exc, readme1 := .exc, readme2 := .exc, readme3 := .exc }) true =
        .ok (m, List.intersperse BatchEvent.sleep
          (["https://github.com/acme/widget", "https://example.com/not-github"].map
            BatchEvent.visit)) ∧
      ∀ u d, m.lookup u = some d ↔
        (u ∈ ["https://github.com/acme/widget", "https://example.com/not-github"] ∧
          extract_github_data u
            ((fun u => if u = "https://github.com/acme/widget" then
                { meta := .resp 200 (some (.obj [("stargazers_count", Json.num 7)])),
                  lastC := .exc, firstC := .exc, firstC2 := .exc, contrib := .exc,
                  readme1 := .exc, readme2 := .exc, readme3 := .exc }
              else
                { meta := .exc, lastC := .exc, firstC := .exc, firstC2 := .exc,
                  contrib := .exc, readme1 := .exc, readme2 := .exc, readme3 := .exc }) u)
            true = .ok (some d)) :=
  c9_batch_enricher_amended
    ["https://github.com/acme/widget", "https://example.com/not-github"]
    (fun u => if u = "https://github.com/acme/widget" then
        { meta := .resp 200 (some (.obj [("stargazers_count", Json.num 7)])),
          lastC := .exc, firstC := .exc, firstC2 := .exc, contrib := .exc,
          readme1 := .exc, readme2 := .exc, readme3 := .exc }
      else
        { meta := .exc, lastC := .exc, firstC := .exc, firstC2 := .exc,
          contrib := .exc, readme1 := .exc, readme2 := .exc, readme3 := .exc }) true
    (by decide)

/-! ## Lemmas for the segmentation team invariant (C10) -/

theorem getD_team_ne (lines : List String) (hne : ¬ lines.isEmpty = true)
    (hall : ∀ x ∈ lines, x ≠ "") :
    (lines.drop (lines.length - 12)).getD
      ((findTeamIdx (lines.drop (lines.length - 12))).getD
        ((lines.drop (lines.length - 12)).length - 1)) "" ≠ "" := by
  have hlen0 : lines.length ≠ 0 := by
    intro e
    exact hne (by rw [List.eq_nil_of_length_eq_zero e]; rfl)
  set tail := lines.drop (lines.length - 12) with htail
  have htlen : tail.length = lines.length - (lines.length - 12) := by
    rw [htail, List.length_drop]
  have hlen : 1 ≤ tail.length := by omega
  have hidx : (findTeamIdx tail).getD (tail.length - 1) < tail.length := by
    cases hf : findTeamIdx tail with
    | none =>
      rw [Option.getD_none]
      omega
    | some k =>
      rw [Option.getD_some]
      have hk := List.mem_of_find?_eq_some hf
      rw [List.mem_reverse, List.mem_range] at hk
      exact hk
  have h1 : tail.get? ((findTeamIdx tail).getD (tail.length - 1)) =
      some (tail.get ⟨_, hidx⟩) := List.get?_eq_get hidx
  have h2 : tail.getD ((findTeamIdx tail).getD (tail.length - 1)) "" =
      tail.get ⟨_, hidx⟩ := by
    rw [List.getD_eq_getElem?_getD, ← List.get?_eq_getElem?, h1]
    rfl
  rw [h2]
  exact hall _ (List.drop_subset _ _ (List.get_mem _ _ _))

theorem processBlock_team (year : Int) (vocab : List String) (href block : String)
    (p : Project) (h : processBlock year vocab href block = some p) : p.team ≠ "" := by
  have hall : ∀ x ∈ blockLines block, x ≠ "" := by
    intro x hx
    simp only [blockLines] at hx
    have := (List.mem_filter.mp hx).2
    simpa using this
  simp only [processBlock] at h
  split at h
  next hcond => exact absurd h (by simp)
  next hcond =>
    split at h
    next => exact absurd h (by simp)
    next =>
      rw [Option.some.injEq] at h
      subst h
      exact getD_team_ne _ hcond hall

/-- C10: every ProjectRecord produced by the per-block segmentation (and
    surviving the final deduplication) has a non-empty team field — an
    all-empty block is skipped before any record is built, and the team
    line is drawn from the block's non-empty stripped lines. -/
theorem c10_team_nonempty :
    ∀ (year : Int) (tagVocab hrefs : List String) (blocks : Nat → String) (p : Project),
      p ∈ parse_projects_from_blocks year tagVocab hrefs blocks → p.team ≠ "" := by
  intro year vocab hrefs blocks p hp
  have hp2 := mem_of_mem_dedupGo _ _ _ hp
  rcases List.mem_filterMap.mp hp2 with ⟨ie, hmem, hpb⟩
  exact processBlock_team _ _ _ _ _ hpb

/-- C10 witness: the theorem applied to a concrete block whose record is
    produced with team "Alice, Bob". -/
theorem c10_team_nonempty_wit :
    ({ year := 2024, name := "Alpha", awards := "", description := "A cool project",
       team := "Alice, Bob", link := "https://x", tags := [] } : Project) ∈
        parse_projects_from_blocks 2024 [] ["https://x"]
          (fun _ => "Alpha\nA cool project\nAlice, Bob") ∧
    ({ year := 2024, name := "Alpha", awards := "", description := "A cool project",
       team := "Alice, Bob", link := "https://x", tags := [] } : Project).team ≠ "" :=
  ⟨by decide, c10_team_nonempty 2024 [] ["https://x"]
      (fun _ => "Alpha\nA cool project\nAlice, Bob") _ (by decide)⟩

/-! ## Lemmas for the identifier parser (C4) -/

theorem strToList_append (s t : String) : (s ++ t).toList = s.toList ++ t.toList :=
  String.data_append s t

theorem asString_toList (s : String) : s.toList.asString = s := rfl

theorem endDollar_false_of (l : List Char) (h1 : l ≠ []) (h2 : '\n' ∉ l) :
    endDollar l = false := by
  have h3 : l ≠ ['\n'] := fun e => h2 (by rw [e]; exact List.mem_cons_self _ _)
  simp [endDollar, h1, h3]

theorem endDollar_true_cases (l : List Char) (h : endDollar l = true) :
    l = [] ∨ l = ['\n'] := by
  rw [endDollar] at h
  rcases Bool.or_eq_true_iff.mp h with h | h
  · exact Or.inl (List.isEmpty_iff.mp h)
  · exact Or.inr (of_decide_eq_true h)

theorem trySuffix_false_of (rem : List Char) (h1 : rem ≠ []) (h2 : '\n' ∉ rem)
    (h3 : ∀ c ∈ rem.head?, c ≠ '/')
    (h4 : ∀ t, rem = ".git".toList ++ t → (t ≠ [] ∧ '\n' ∉ t)) :
    trySuffix rem = false := by
  have hslash : (['/'].isPrefixOf rem) = false := by
    cases rem with
    | nil => rfl
    | cons c cs =>
      have hc : c ≠ '/' := h3 c rfl
      have hb : ('/' == c) = false := beq_eq_false_iff_ne.mpr (fun e => hc e.symm)
      simp [List.isPrefixOf, hb]
  have hgit : (".git".toList.isPrefixOf rem && endDollar (rem.drop 4)) = false := by
    by_cases hp : ".git".toList.isPrefixOf rem = true
    · rcases List.isPrefixOf_iff_prefix.mp hp with ⟨t, ht⟩
      have h5 := h4 t ht.symm
      have hdrop : rem.drop 4 = t := by
        rw [← ht]
        exact List.drop_left' (by rfl)
      rw [hp, hdrop, endDollar_false_of t h5.1 h5.2, Bool.and_false]
    · rw [Bool.not_eq_true] at hp
      rw [hp, Bool.false_and]
  rw [trySuffix, hslash, hgit, endDollar_false_of rem h1 h2]
  rfl

theorem trySuffix_true_cases (sfx : List Char) (h : trySuffix sfx = true) :
    sfx = [] ∨ sfx = ['\n'] ∨ sfx = ['/'] ∨ sfx = ['/', '\n'] ∨
    sfx = ".git".toList ∨ sfx = ".git".toList ++ ['\n'] := by
  rw [trySuffix] at h
  rcases Bool.or_eq_true_iff.mp h with h | h
  · rcases Bool.or_eq_true_iff.mp h with h | h
    · rcases Bool.and_eq_true_iff.mp h with ⟨hp, he⟩
      rcases List.isPrefixOf_iff_prefix.mp hp with ⟨t, ht⟩
      have hdrop : sfx.drop 4 = t := by
        rw [← ht]
        exact List.drop_left' (by rfl)
      rw [hdrop] at he
      rcases endDollar_true_cases t he with h' | h'
      · subst h'
        rw [← ht]
        simp
      · subst h'
        rw [← ht]
        simp
    · rcases Bool.and_eq_true_iff.mp h with ⟨hp, he⟩
      rcases List.isPrefixOf_iff_prefix.mp hp with ⟨t, ht⟩
      have hdrop : sfx.drop 1 = t := by
        rw [← ht]
        exact List.drop_left' (by rfl)
      rw [hdrop] at he
      rcases endDollar_true_cases t he with h' | h'
      · subst h'
        rw [← ht]
        simp
      · subst h'
        rw [← ht]
        simp
  · rcases endDollar_true_cases sfx h with h' | h' <;> simp [h']

theorem toList_asString (l : List Char) : l.asString.toList = l := rfl

theorem dropWhile_as_drop (p : Char → Bool) (l : List Char) :
    l.drop (l.takeWhile p).length = l.dropWhile p := by
  induction l with
  | nil => rfl
  | cons c cs ih =>
    by_cases hc : p c = true
    · simp [List.takeWhile_cons, List.dropWhile_cons, hc, ih]
    · rw [Bool.not_eq_true] at hc
      simp [List.takeWhile_cons, List.dropWhile_cons, hc]

theorem takeWhile_ne_slash (o t : List Char) (ho : '/' ∉ o) :
    (o ++ '/' :: t).takeWhile (fun c => decide (c ≠ '/')) = o := by
  induction o with
  | nil => simp [List.takeWhile_cons]
  | cons c cs ih =>
    have hc : c ≠ '/' := fun e => ho (e ▸ List.mem_cons_self _ _)
    have hcs : '/' ∉ cs := fun hm => ho (List.mem_cons_of_mem _ hm)
    have ih2 := ih hcs
    simp only [ne_eq, decide_not] at ih2 ⊢
    simp [List.takeWhile_cons, hc, ih2]

theorem trySuffix_app_false (m sfx : List Char) (hm : m ≠ []) (hnl : '\n' ∉ m)
    (hns : '/' ∉ m)
    (hsfx : sfx = [] ∨ sfx = ['/'] ∨ sfx = ".git".toList)
    (hgit : sfx = [] → m ≠ ".git".toList) :
    trySuffix (m ++ sfx) = false := by
  by_contra hb
  rw [Bool.not_eq_false] at hb
  have hsix := trySuffix_true_cases _ hb
  rcases hsfx with hs | hs | hs
  · subst hs
    rw [List.append_nil] at hsix
    rcases hsix with h | h | h | h | h | h
    · exact hm h
    · exact hnl (h ▸ List.mem_cons_self _ _)
    · exact hns (h ▸ List.mem_cons_self _ _)
    · exact hns (h ▸ List.mem_cons_self _ _)
    · exact hgit rfl h
    · exact hnl (h ▸ (by decide : '\n' ∈ ".git".toList ++ ['\n']))
  · subst hs
    rcases hsix with h | h | h | h | h | h
    · exact absurd (congrArg List.length h) (by simp)
    · exact absurd (congrArg List.getLast? h) (by simp [List.getLast?_concat])
    · have hl := congrArg List.length h
      simp at hl
      exact hm hl
    · exact absurd (congrArg List.getLast? h) (by simp [List.getLast?_concat])
    · exact absurd (congrArg List.getLast? h) (by simp [List.getLast?_concat])
    · exact absurd (congrArg List.getLast? h) (by simp [List.getLast?_concat])
  · subst hs
    rcases hsix with h | h | h | h | h | h
    · exact absurd (congrArg List.length h) (by simp)
    · exact absurd (congrArg List.length h) (by simp)
    · exact absurd (congrArg List.length h) (by simp)
    · exact absurd (congrArg List.length h) (by simp)
    · have hl := congrArg List.length h
      simp at hl
      exact hm hl
    · exact absurd (congrArg List.getLast? h) (by simp [List.getLast?_append_of_ne_nil, List.getLast?_concat])

theorem repoGo_skip (mid : List Char) : ∀ (acc sfx : List Char),
    (∀ c ∈ mid, c ≠ '/') →
    (∀ m, m ≠ [] → m <:+ mid → trySuffix (m ++ sfx) = false) →
    repoGo acc (mid ++ sfx) = repoGo (acc ++ mid) sfx := by
  induction mid with
  | nil =>
    intro acc sfx _ _
    simp
  | cons c cs ih =>
    intro acc sfx hns htry
    have hfalse : trySuffix (c :: (cs ++ sfx)) = false := by
      have h0 := htry (c :: cs) (by simp) (List.suffix_refl _)
      simpa using h0
    have hc : ¬ (c = '/') := hns c (List.mem_cons_self _ _)
    have step : repoGo acc (c :: (cs ++ sfx)) = repoGo (acc ++ [c]) (cs ++ sfx) := by
      rw [repoGo, hfalse]
      simp [hc]
    rw [List.cons_append, step,
      ih (acc ++ [c]) sfx (fun x hx => hns x (List.mem_cons_of_mem _ hx))
        (fun m hm hsuf => htry m hm (hsuf.trans (List.suffix_cons c cs)))]
    simp

theorem repoGo_sound (rem : List Char) : ∀ acc l, repoGo acc rem = some l →
    ∃ mid sfx, rem = mid ++ sfx ∧ l = acc ++ mid ∧ trySuffix sfx = true ∧ '/' ∉ mid := by
  induction rem with
  | nil =>
    intro acc l h
    rw [repoGo] at h
    have ht : trySuffix [] = true := by decide
    rw [ht, if_pos rfl, Option.some.injEq] at h
    exact ⟨[], [], rfl, by simp [h], ht, by simp⟩
  | cons c cs ih =>
    intro acc l h
    by_cases ht : trySuffix (c :: cs) = true
    · rw [repoGo, ht, if_pos rfl, Option.some.injEq] at h
      exact ⟨[], c :: cs, rfl, by simp [h], ht, by simp⟩
    · rw [Bool.not_eq_true] at ht
      by_cases hc : c = '/'
      · rw [repoGo, ht] at h
        simp [hc] at h
      · rw [repoGo, ht] at h
        simp only [Bool.false_eq_true, if_false, hc] at h
        obtain ⟨mid, sfx, h1, h2, h3, h4⟩ := ih (acc ++ [c]) l h
        refine ⟨c :: mid, sfx, by rw [List.cons_append, h1], ?_, h3, ?_⟩
        · rw [h2]; simp
        · intro hmem
          rcases List.mem_cons.mp hmem with he | he
          · exact hc he.symm
          · exact h4 he

theorem matchRepo_sound (t l : List Char) (h : matchRepo t = some l) :
    ∃ sfx, t = l ++ sfx ∧ trySuffix sfx = true ∧ l ≠ [] ∧ '/' ∉ l := by
  cases t with
  | nil => exact absurd h (by simp [matchRepo])
  | cons c cs =>
    rw [matchRepo] at h
    by_cases hc : c = '/'
    · simp [hc] at h
    · rw [if_neg hc] at h
      obtain ⟨mid, sfx, h1, h2, h3, h4⟩ := repoGo_sound cs [c] l h
      refine ⟨sfx, ?_, h3, ?_, ?_⟩
      · rw [h1, h2, List.singleton_append, List.cons_append]
      · rw [h2]; simp
      · rw [h2]
        intro hmem
        rcases List.mem_cons.mp hmem with he | he
        · exact hc he.symm
        · exact h4 he

theorem matchRepo_complete (r sfx : List Char) (hr : r ≠ []) (hrs : '/' ∉ r) (hrn : '\n' ∉ r)
    (hgit : sfx = [] → ¬ (".git".toList <:+ r))
    (hsfx : sfx = [] ∨ sfx = ['/'] ∨ sfx = ".git".toList) :
    matchRepo (r ++ sfx) = some r := by
  cases r with
  | nil => exact absurd rfl hr
  | cons c r0 =>
    have hc : ¬ (c = '/') := fun e => hrs (e ▸ List.mem_cons_self _ _)
    have hcs : ∀ x ∈ r0, x ≠ '/' := fun x hx e => hrs (List.mem_cons_of_mem c (e ▸ hx))
    have htry : ∀ m, m ≠ [] → m <:+ r0 → trySuffix (m ++ sfx) = false := by
      intro m hm hsuf
      have hsub : m ⊆ c :: r0 := (hsuf.trans (List.suffix_cons c r0)).subset
      refine trySuffix_app_false m sfx hm (fun hmem => hrn (hsub hmem))
        (fun hmem => hrs (hsub hmem)) hsfx ?_
      intro hse hme
      exact hgit hse (hme ▸ hsuf.trans (List.suffix_cons c r0))
    have htf : trySuffix sfx = true := by
      rcases hsfx with h | h | h <;> subst h <;> decide
    rw [List.cons_append, matchRepo, if_neg hc, repoGo_skip r0 [c] sfx hcs htry,
      repoGo.eq_def, htf]
    simp

theorem extract_some_of_shape (url : String) (o r sfx : List Char)
    (hurl : url.toList = "https://github.com/".toList ++ (o ++ '/' :: (r ++ sfx)))
    (ho : o ≠ []) (hos : '/' ∉ o)
    (hr : r ≠ []) (hrs : '/' ∉ r) (hrn : '\n' ∉ r)
    (hgit : sfx = [] → ¬ (".git".toList <:+ r))
    (hsfx : sfx = [] ∨ sfx = ['/'] ∨ sfx = ".git".toList) :
    extract_github_owner_repo url = some (o.asString, r.asString) := by
  have hpre : ("https://github.com/".toList).isPrefixOf url.toList = true := by
    rw [hurl]
    exact List.isPrefixOf_iff_prefix.mpr (List.prefix_append _ _)
  have hoe : o.isEmpty = false := by
    cases o with
    | nil => exact absurd rfl ho
    | cons a as => rfl
  have hpre2 : ("https://github.com/".toList).isPrefixOf
      ("https://github.com/".toList ++ (o ++ '/' :: (r ++ sfx))) = true :=
    List.isPrefixOf_iff_prefix.mpr (List.prefix_append _ _)
  simp only [extract_github_owner_repo, hurl]
  rw [hpre2]
  simp only [if_true]
  rw [List.drop_left, takeWhile_ne_slash o (r ++ sfx) hos, List.drop_left]
  simp only [hoe]
  rw [matchRepo_complete r sfx hr hrs hrn hgit hsfx]
  simp

theorem extract_none_of_host (url : String)
    (h : ("https://github.com/".toList).isPrefixOf url.toList = false) :
    extract_github_owner_repo url = none := by
  simp only [extract_github_owner_repo, h]
  simp

theorem dropWhile_head_false (p : Char → Bool) (l : List Char) (c : Char) (cs : List Char)
    (h : l.dropWhile p = c :: cs) : p c = false := by
  induction l with
  | nil => simp [List.dropWhile] at h
  | cons a as ih =>
    rw [List.dropWhile_cons] at h
    by_cases ha : p a = true
    · rw [if_pos ha] at h
      exact ih h
    · rw [Bool.not_eq_true] at ha
      rw [if_neg (by simp [ha])] at h
      injection h with h1 h2
      subst h1
      exact ha

theorem extract_sound (url ow rp : String)
    (h : extract_github_owner_repo url = some (ow, rp)) :
    ∃ sfx, trySuffix sfx = true ∧
      url.toList = "https://github.com/".toList ++ (ow.toList ++ '/' :: (rp.toList ++ sfx)) ∧
      ow.toList ≠ [] ∧ '/' ∉ ow.toList ∧ rp.toList ≠ [] ∧ '/' ∉ rp.toList := by
  by_cases hpre : ("https://github.com/".toList).isPrefixOf url.toList = true
  case neg =>
    rw [Bool.not_eq_true] at hpre
    rw [extract_none_of_host url hpre] at h
    exact absurd h (by simp)
  case pos =>
  obtain ⟨rest, hrest⟩ := List.isPrefixOf_iff_prefix.mp hpre
  simp only [extract_github_owner_repo, hpre, if_true] at h
  rw [← hrest, List.drop_left, dropWhile_as_drop] at h
  cases hdw : rest.dropWhile (fun x => decide (x ≠ '/')) with
  | nil =>
    rw [hdw] at h
    simp at h
  | cons c tail =>
    have hcf : (fun x => decide (x ≠ '/')) c = false := dropWhile_head_false _ rest c tail hdw
    have hc : c = '/' := not_not.mp (of_decide_eq_false hcf)
    subst hc
    rw [hdw] at h
    simp at h
    obtain ⟨⟨hlt, hne⟩, a, hmr, how, hrp⟩ := h
    obtain ⟨sfx, htr, htl, hane, hans⟩ := matchRepo_sound tail a hmr
    simp only [ne_eq, decide_not] at hdw
    have hsplit : rest = rest.takeWhile (fun x => !decide (x = '/')) ++ '/' :: tail := by
      conv_lhs => rw [← List.takeWhile_append_dropWhile (fun x => !decide (x = '/')) rest]
      rw [hdw]
    have howl : ow.toList = rest.takeWhile (fun x => !decide (x = '/')) := by
      rw [← how]
      rfl
    have hrpl : rp.toList = a := by
      rw [← hrp]
      rfl
    refine ⟨sfx, htl, ?_, ?_, ?_, ?_, ?_⟩
    · rw [← hrest, howl, hrpl, ← htr, ← hsplit]
    · rw [howl]
      cases rest with
      | nil => simp at hlt
      | cons r0 rest2 =>
        simp only [List.getElem_cons_zero] at hne
        simp [List.takeWhile_cons, hne]
    · rw [howl]
      intro hmem
      have h2 := List.mem_takeWhile_imp hmem
      simp at h2
    · rw [hrpl]
      exact hane
    · rw [hrpl]
      exact hans

/-- C4 counterexample: the claim covers URLs of the shape
    https://github.com/owner/repo optionally followed by ".git" and
    optionally a trailing "/", and requires the pair (owner, repo); but for
    "https://github.com/acme/widget.git/" — owner "acme", repo "widget",
    both ".git" and "/" appended — the code returns ("acme", "widget.git"):
    the regex suffix group accepts ".git" or "/" but never both, so the
    ".git" is absorbed into the lazily extended repo group. -/
theorem c4_identifier_parser_cex :
    extract_github_owner_repo "https://github.com/acme/widget.git/" =
        some ("acme", "widget.git") ∧
      extract_github_owner_repo "https://github.com/acme/widget.git/" ≠
        some ("acme", "widget") := by
  constructor
  · decide
  · decide

/-- C4 (amended): (1) for every URL whose characters are exactly
    "https://github.com/" ++ owner ++ "/" ++ repo ++ suffix with owner and
    repo non-empty and slash-free, repo newline-free, the suffix one of "",
    "/" or ".git", and — when the suffix is empty — repo not itself ending
    in ".git", parsing returns (owner, repo); (2) the spec's two examples
    hold: "https://github.com/acme/widget.git" yields ("acme", "widget")
    and "https://example.com/not-github" yields nothing; (3) conversely
    every successfully parsed URL has exactly that shape: it decomposes as
    "https://github.com/" ++ owner ++ "/" ++ repo ++ suffix with owner and
    repo non-empty and slash-free and the suffix one of "", "\n", "/",
    "/\n", ".git" or ".git\n" (Python '$' also matches just before one
    final newline), so a different host, extra path segments or missing
    segments yield no identifier; (4) any URL not starting with
    "https://github.com/" yields no identifier. -/
theorem c4_identifier_parser_amended :
    (∀ (url : String) (o r sfx : List Char),
      url.toList = "https://github.com/".toList ++ (o ++ '/' :: (r ++ sfx)) →
      o ≠ [] → '/' ∉ o → r ≠ [] → '/' ∉ r → '\n' ∉ r →
      (sfx = [] → ¬ (".git".toList <:+ r)) →
      (sfx = [] ∨ sfx = ['/'] ∨ sfx = ".git".toList) →
      extract_github_owner_repo url = some (o.asString, r.asString)) ∧
    (extract_github_owner_repo "https://github.com/acme/widget.git" =
        some ("acme", "widget") ∧
      extract_github_owner_repo "https://example.com/not-github" = none) ∧
    (∀ (url ow rp : String),
      extract_github_owner_repo url = some (ow, rp) →
      ∃ sfx, (sfx = [] ∨ sfx = ['\n'] ∨ sfx = ['/'] ∨ sfx = ['/', '\n'] ∨
          sfx = ".git".toList ∨ sfx = ".git".toList ++ ['\n']) ∧
        url.toList =
          "https://github.com/".toList ++ (ow.toList ++ '/' :: (rp.toList ++ sfx)) ∧
        ow.toList ≠ [] ∧ '/' ∉ ow.toList ∧ rp.toList ≠ [] ∧ '/' ∉ rp.toList) ∧
    (∀ url : String,
      ("https://github.com/".toList).isPrefixOf url.toList = false →
      extract_github_owner_repo url = none) := by
  refine ⟨?_, ⟨by decide, by decide⟩, ?_, ?_⟩
  · intro url o r sfx hurl ho hos hr hrs hrn hgit hsfx
    exact extract_some_of_shape url o r sfx hurl ho hos hr hrs hrn hgit hsfx
  · intro url ow rp h
    obtain ⟨sfx, htl, hdec, h3, h4, h5, h6⟩ := extract_sound url ow rp h
    exact ⟨sfx, trySuffix_true_cases sfx htl, hdec, h3, h4, h5, h6⟩
  · intro url hpre
    exact extract_none_of_host url hpre

/-- C4 witness: the amended theorem's positive family applied at the
    concrete URL "https://github.com/acme/widget", with every hypothesis
    discharged by computation. -/
theorem c4_identifier_parser_wit :
    extract_github_owner_repo "https://github.com/acme/widget" =
      some ("acme", "widget") :=
  c4_identifier_parser_amended.1 "https://github.com/acme/widget"
    "acme".toList "widget".toList []
    (by decide) (by decide) (by decide) (by decide) (by decide) (by decide)
    (by decide) (by decide)
